import Mathlib

/-!
# Verification of the LinkedIn-post feature-extraction pipeline

Shallow embedding of `src/helper_functions.py` (functions `get_posts`,
`_clean_text`, `_detect_tags`, `_detect_external_link`, `_detect_media`,
`_extract_post_content`) over `List Char`.  Strings are modelled as ASCII
character lists; Python regular-expression substitution (`re.sub`) and
counting (`re.findall`) are modelled by left-to-right scanners with
greedy, pattern-specific matchers; BeautifulSoup's `get_text` is modelled
as removal of `<...>` tag spans, and its element queries are modelled over
a flat list of opening tags with parsed attributes (the selectors used by
the code are all single-element selectors, so the tree structure is not
needed).  Entity decoding and single-quoted attribute values are not
modelled; no input considered here uses them.
-/

/-! ## Character classes (ASCII models of Python's `\w`, `\s`, …) -/

/-- Python `\s` restricted to ASCII: space, tab, newline, carriage return,
vertical tab, form feed. -/
def isSpaceChar (c : Char) : Bool :=
  c = ' ' || c = '\t' || c = '\n' || c = '\r' || c = Char.ofNat 11 || c = Char.ofNat 12

/-- Python `\w` restricted to ASCII: letters, digits, underscore. -/
def isWordChar (c : Char) : Bool :=
  c.isAlpha || c.isDigit || c = '_'

/-- The character class `[a-zA-Z0-9_-]` used by the short-link token patterns. -/
def isTokenChar (c : Char) : Bool :=
  c.isAlpha || c.isDigit || c = '_' || c = '-'

/-- The class `@[a-zA-Z0-9._-]+` uses after the `@`. -/
def isAtNameChar (c : Char) : Bool :=
  c.isAlpha || c.isDigit || c = '.' || c = '_' || c = '-'

/-- The sentence punctuation class `[.!?,:;]` of `_clean_text`. -/
def isPunct (c : Char) : Bool :=
  c = '.' || c = '!' || c = '?' || c = ',' || c = ':' || c = ';'

/-- Characters kept by `_clean_text`'s final special-character filter
(word characters, whitespace, period, comma, bang, question mark, slash,
hyphen). -/
def isKeptChar (c : Char) : Bool :=
  isWordChar c || isSpaceChar c || c = '.' || c = ',' || c = '!' || c = '?' || c = '/' || c = '-'

/-- The double-quote character (used by the attribute parser). -/
def dq : Char := Char.ofNat 34

/-! ## Basic string utilities -/

/-- Strip the literal `p` from the front of `s`; `none` when `p` is not a
front segment of `s`. -/
def stripPre : List Char → List Char → Option (List Char)
  | [], s => some s
  | _ :: _, [] => none
  | p :: ps, c :: cs => if c = p then stripPre ps cs else none

/-- `startsWith p s`: the literal `p` is a front segment of `s`. -/
def startsWith : List Char → List Char → Bool
  | [], _ => true
  | _ :: _, [] => false
  | p :: ps, c :: cs => p = c && startsWith ps cs

/-- `containsSub p s`: the literal `p` occurs somewhere in `s`
(model of Python's `p in s`). -/
def containsSub (p : List Char) : List Char → Bool
  | [] => startsWith p []
  | c :: cs => startsWith p (c :: cs) || containsSub p cs

/-- Split on whitespace runs, dropping empty pieces: model of Python's
`str.split()`.  First argument is the reversed current token. -/
def wsTokensAux : List Char → List Char → List (List Char)
  | cur, [] => if cur = [] then [] else [cur.reverse]
  | cur, c :: cs =>
    if isSpaceChar c then
      if cur = [] then wsTokensAux [] cs else cur.reverse :: wsTokensAux [] cs
    else wsTokensAux (c :: cur) cs

/-- Model of Python's `str.split()` (split on whitespace, no empty tokens). -/
def wsTokens (s : List Char) : List (List Char) := wsTokensAux [] s

/-- Model of Python's `str.strip()`: drop leading and trailing whitespace. -/
def stripEnds (s : List Char) : List Char :=
  ((s.dropWhile isSpaceChar).reverse.dropWhile isSpaceChar).reverse

/-- Model of BeautifulSoup's `get_text()`: remove every `<...>` tag span,
keep the text between spans.  The Boolean state is `true` inside a tag.
Text after an unterminated `<` is dropped. -/
def stripTagsAux : Bool → List Char → List Char
  | _, [] => []
  | false, c :: cs => if c = '<' then stripTagsAux true cs else c :: stripTagsAux false cs
  | true, c :: cs => if c = '>' then stripTagsAux false cs else stripTagsAux true cs

/-- Text content of an HTML fragment (model of `BeautifulSoup(...).get_text()`). -/
def stripTags (s : List Char) : List Char := stripTagsAux false s

/-! ## Model of `re.sub(pattern, '', s)` and `re.findall(pattern, s)`

A matcher takes the current suffix and returns the rest after a match at
its head, or `none`.  Every matcher below consumes at least one character
on success, so fuel equal to the string length never runs out; the scan
visits positions left to right and restarts after each match, exactly as
`re.sub`/`re.findall` do for these patterns (none of which can match the
empty string). -/

/-- Delete every non-overlapping match, scanning left to right. -/
def reDelFuel (m : List Char → Option (List Char)) : Nat → List Char → List Char
  | _, [] => []
  | 0, s => s
  | fuel + 1, c :: cs =>
    match m (c :: cs) with
    | some rest => reDelFuel m fuel rest
    | none => c :: reDelFuel m fuel cs

/-- `re.sub(pattern, '', s)` for a pattern with matcher `m`. -/
def reDel (m : List Char → Option (List Char)) (s : List Char) : List Char :=
  reDelFuel m s.length s

/-- Count non-overlapping matches, scanning left to right. -/
def reCountFuel (m : List Char → Option (List Char)) : Nat → List Char → Nat
  | _, [] => 0
  | 0, _ => 0
  | fuel + 1, c :: cs =>
    match m (c :: cs) with
    | some rest => 1 + reCountFuel m fuel rest
    | none => reCountFuel m fuel cs

/-- `len(re.findall(pattern, s))` for a pattern with matcher `m`. -/
def reCount (m : List Char → Option (List Char)) (s : List Char) : Nat :=
  reCountFuel m s.length s

/-- Greedy `[a-zA-Z0-9_-]+`. -/
def matchTokenPlus : List Char → Option (List Char)
  | [] => none
  | c :: cs => if isTokenChar c then some (cs.dropWhile isTokenChar) else none

/-- Greedy `[^\s]+`. -/
def matchNonWsPlus : List Char → Option (List Char)
  | [] => none
  | c :: cs =>
    if isSpaceChar c then none else some (cs.dropWhile (fun d => !isSpaceChar d))

/-- Greedy `\w+`. -/
def matchWordPlus : List Char → Option (List Char)
  | [] => none
  | c :: cs => if isWordChar c then some (cs.dropWhile isWordChar) else none

/-- Greedy `\s+`. -/
def matchSpacePlus : List Char → Option (List Char)
  | [] => none
  | c :: cs => if isSpaceChar c then some (cs.dropWhile isSpaceChar) else none

/-- Matcher for `https?://lnkd\.in/[a-zA-Z0-9_-]+` (the `s?` alternatives are
mutually exclusive because the follow-up literal starts with `:`). -/
def matchHttpLnkd (s : List Char) : Option (List Char) :=
  match stripPre (("https://lnkd.in/").toList) s with
  | some r => matchTokenPlus r
  | none =>
    match stripPre (("http://lnkd.in/").toList) s with
    | some r => matchTokenPlus r
    | none => none

/-- Matcher for the mangled form `httpslnkd\.in[a-zA-Z0-9_-]+`. -/
def matchMangled (s : List Char) : Option (List Char) :=
  match stripPre (("httpslnkd.in").toList) s with
  | some r => matchTokenPlus r
  | none => none

/-- Matcher for the bare form `lnkd\.in/[a-zA-Z0-9_-]+`. -/
def matchLnkdShort (s : List Char) : Option (List Char) :=
  match stripPre (("lnkd.in/").toList) s with
  | some r => matchTokenPlus r
  | none => none

/-- Matcher for `https?://[^\s]+`. -/
def matchUrl (s : List Char) : Option (List Char) :=
  match stripPre (("https://").toList) s with
  | some r => matchNonWsPlus r
  | none =>
    match stripPre (("http://").toList) s with
    | some r => matchNonWsPlus r
    | none => none

/-- Matcher for `@[a-zA-Z0-9._-]+`. -/
def matchAtName : List Char → Option (List Char)
  | [] => none
  | c :: cs => if c = '@' then matchAtNameTail cs else none
where
  matchAtNameTail : List Char → Option (List Char)
    | [] => none
    | c :: cs => if isAtNameChar c then some (cs.dropWhile isAtNameChar) else none

/-- Matcher for `@\w+\s+\w+` (the classes `\w` and `\s` are disjoint, so
greedy matching needs no backtracking). -/
def matchAtTwoWords : List Char → Option (List Char)
  | [] => none
  | c :: cs =>
    if c = '@' then
      match matchWordPlus cs with
      | some r1 =>
        match matchSpacePlus r1 with
        | some r2 => matchWordPlus r2
        | none => none
      | none => none
    else none

/-- Matcher for `#\w+`. -/
def matchHash : List Char → Option (List Char)
  | [] => none
  | c :: cs => if c = '#' then matchWordPlus cs else none

/-! ## `_clean_text` -/

/-- Map every whitespace character to a plain space (first half of
`re.sub(r'\s+', ' ', …)`). -/
def toSp (c : Char) : Char := if isSpaceChar c then ' ' else c

/-- Collapse runs of plain spaces to a single space (second half of
`re.sub(r'\s+', ' ', …)` after `toSp`). -/
def squeezeSpaces : List Char → List Char
  | [] => []
  | [c] => [c]
  | c :: d :: cs =>
    if c = ' ' && d = ' ' then squeezeSpaces (d :: cs)
    else c :: squeezeSpaces (d :: cs)

/-- `re.sub(r'\s+', ' ', s)`: every maximal whitespace run becomes one space. -/
def collapseWs (s : List Char) : List Char := squeezeSpaces (s.map toSp)

/-- Does the suffix, after skipping whitespace, start with sentence
punctuation?  Auxiliary test for `fixPunct`. -/
def headIsPunct (s : List Char) : Bool :=
  match s.dropWhile isSpaceChar with
  | [] => false
  | c :: _ => isPunct c

/-- `re.sub(r'\s+([.!?,:;])', r'\1', s)`: drop every whitespace character
whose following whitespace run ends at sentence punctuation. -/
def fixPunct : List Char → List Char
  | [] => []
  | c :: cs =>
    if isSpaceChar c && headIsPunct cs then fixPunct cs
    else c :: fixPunct cs

/-- Model of `_clean_text` from `src/helper_functions.py`: falsy guard, tag
stripping, the three short-link deletions, generic URL deletion, strip and
whitespace collapse, punctuation-space removal, special-character filter. -/
def cleanTextL (s : List Char) : List Char :=
  if s = [] then []
  else
    ((fixPunct (collapseWs (stripEnds
        (reDel matchUrl
          (reDel matchLnkdShort
            (reDel matchMangled
              (reDel matchHttpLnkd (stripTags s)))))))).filter isKeptChar)

/-- `_clean_text` on Lean strings. -/
def cleanText (s : String) : String := (cleanTextL s.toList).asString

/-! ## Flat DOM model (for BeautifulSoup element queries)

The code only ever queries single elements by tag name, attribute value or
class (`soup.find('meta', ...)`, `soup.select` with simple selectors), so
a flat, document-ordered list of opening tags with parsed attributes is a
sufficient model of the parse tree. -/

/-- An opening tag: lowercased name and (lowercased key, value) attributes. -/
structure HtmlElem where
  name : List Char
  attrs : List (List Char × List Char)
deriving DecidableEq

/-- Split out the raw contents of every `<...>` span, in document order.
The state is `none` outside a tag, `some acc` (reversed contents) inside. -/
def splitTagsAux : Option (List Char) → List Char → List (List Char)
  | _, [] => []
  | none, c :: cs => if c = '<' then splitTagsAux (some []) cs else splitTagsAux none cs
  | some acc, c :: cs =>
    if c = '>' then acc.reverse :: splitTagsAux none cs
    else splitTagsAux (some (c :: acc)) cs

/-- Parse the attribute part of a tag: skip whitespace, read a key up to
`=` or whitespace, then a double-quoted or unquoted value.  Fuel bounds the
scan (one unit per attribute suffices since each step consumes input). -/
def parseAttrsFuel : Nat → List Char → List (List Char × List Char)
  | 0, _ => []
  | _, [] => []
  | fuel + 1, s =>
    match s.dropWhile isSpaceChar with
    | [] => []
    | c :: cs =>
      let s1 := c :: cs
      let key := s1.takeWhile (fun d => !(d = '=') && !isSpaceChar d)
      match s1.dropWhile (fun d => !(d = '=') && !isSpaceChar d) with
      | '=' :: d :: r3 =>
        if d = dq then
          (key.map Char.toLower, r3.takeWhile (fun x => !(x = dq))) ::
            parseAttrsFuel fuel ((r3.dropWhile (fun x => !(x = dq))).drop 1)
        else
          (key.map Char.toLower, (d :: r3).takeWhile (fun x => !isSpaceChar x)) ::
            parseAttrsFuel fuel ((d :: r3).dropWhile (fun x => !isSpaceChar x))
      | ['='] => [(key.map Char.toLower, [])]
      | r1 => (key.map Char.toLower, []) :: parseAttrsFuel fuel r1

/-- Parse one raw tag body into an element; closing tags, comments,
doctypes and processing instructions yield no element. -/
def parseElem (t : List Char) : Option HtmlElem :=
  match t with
  | [] => none
  | c :: _ =>
    if c = '/' || c = '!' || c = '?' then none
    else
      let t2 := if t.getLast? = some '/' then t.dropLast else t
      let nm := (t2.takeWhile (fun d => !isSpaceChar d && !(d = '/'))).map Char.toLower
      let rest := t2.dropWhile (fun d => !isSpaceChar d && !(d = '/'))
      some ⟨nm, parseAttrsFuel rest.length rest⟩

/-- All elements of an HTML fragment, in document order. -/
def parseElems (s : List Char) : List HtmlElem :=
  (splitTagsAux none s).filterMap parseElem

/-- Attribute lookup with default empty value (model of `element.get(k, '')`). -/
def getAttr (e : HtmlElem) (k : List Char) : List Char :=
  match e.attrs.find? (fun a => a.fst = k) with
  | some a => a.snd
  | none => []

/-- Does the element's `class` attribute contain the given class token
(model of a `.token` CSS selector)? -/
def hasClass (e : HtmlElem) (cls : List Char) : Bool :=
  (wsTokens (getAttr e (("class").toList))).contains cls

/-! ## Feature detectors and content extraction -/

/-- The eight selector counts of `_detect_tags`'s `tag_indicators` list,
summed over all elements (an element matching several selectors counts
once per selector, as `soup.select` returns it for each). -/
def selectorCount (es : List HtmlElem) : Nat :=
  (es.filter (fun e => e.name = ("a").toList &&
      containsSub (("/in/").toList) (getAttr e (("href").toList)))).length +
  (es.filter (fun e => e.name = ("a").toList &&
      containsSub (("/company/").toList) (getAttr e (("href").toList)))).length +
  (es.filter (fun e => hasClass e (("feed-shared-actor__name").toList))).length +
  (es.filter (fun e => hasClass e (("feed-shared-actor__title").toList))).length +
  (es.filter (fun e => containsSub (("person").toList)
      (getAttr e (("data-entity-urn").toList)))).length +
  (es.filter (fun e => containsSub (("company").toList)
      (getAttr e (("data-entity-urn").toList)))).length +
  (es.filter (fun e => hasClass e (("mention").toList))).length +
  (es.filter (fun e => hasClass e (("tagged-mention").toList))).length

/-- The six phrases of `_detect_tags`'s `tag_phrases` list. -/
def tagPhrases : List (List Char) :=
  [("tagged").toList, ("mentioned").toList, ("thanks to").toList,
   ("kudos to").toList, ("shout out to").toList, ("thanks for").toList]

/-- Model of `_detect_tags`: falsy guard, HTML selector hits, the three
mention and hashtag patterns over the text content, and one count per
tag-indicating phrase contained in the lowercased text content. -/
def detectTags (s : List Char) : Nat :=
  if s = [] then 0
  else
    let text := stripTags s
    selectorCount (parseElems s) +
      (reCount matchAtName text + reCount matchAtTwoWords text + reCount matchHash text) +
      (tagPhrases.filter (fun p => containsSub p (text.map Char.toLower))).length

/-- Model of `_detect_external_link`: falsy guard, then literal substring
test for the short-link redirector. -/
def detectExternalLink (s : List Char) : Bool :=
  if s = [] then false
  else containsSub (("https://lnkd.in").toList) s

/-- Is the element an Open-Graph image meta tag
(`meta` with `property="og:image"`)? -/
def isOgImageMeta (e : HtmlElem) : Bool :=
  e.name = ("meta").toList && getAttr e (("property").toList) = ("og:image").toList

/-- Model of `_detect_media`: falsy guard, then the first `og:image` meta
tag's `content` must contain the LinkedIn media URL pattern. -/
def detectMedia (s : List Char) : Bool :=
  if s = [] then false
  else
    match (parseElems s).find? isOgImageMeta with
    | some e => containsSub (("https://media.licdn.com/dms/image").toList)
        (getAttr e (("content").toList))
    | none => false

/-- Is the element a `meta` tag with `name="description"`? -/
def isDescriptionMeta (e : HtmlElem) : Bool :=
  e.name = ("meta").toList && getAttr e (("name").toList) = ("description").toList

/-- Model of `_extract_post_content`: falsy guard, then the first
`meta name="description"` element's non-empty `content`, stripped. -/
def extractPostContent (s : List Char) : List Char :=
  if s = [] then []
  else
    match (parseElems s).find? isDescriptionMeta with
    | some e =>
      let c := getAttr e (("content").toList)
      if c = [] then [] else stripEnds c
    | none => []

/-- Model of `len(cleaned_content.split()) if cleaned_content else 0`. -/
def wordCount (s : List Char) : Nat :=
  if s = [] then 0 else (wsTokens s).length

/-! ## Record Builder (`get_posts`)

An input row of the parsed export: `Post URL`, `Post publish date`
(`none` models a missing/NaT date; a present date is counted in days
since 1970-01-01, a Thursday), `Impressions` (nullable integer). -/

structure InputRecord where
  postUrl : List Char
  publishDate : Option Nat
  impressions : Option Int
deriving DecidableEq

/-- An output row: the three input columns plus the six feature columns
initialised by `get_posts` (after the final rename the feature columns are
`post_text`, `word_count`, `n_tags`, `external_link`, `media`, `post_day`). -/
structure OutputRecord where
  postUrl : List Char
  publishDate : Option Nat
  impressions : Option Int
  post_text : List Char
  word_count : Nat
  n_tags : Nat
  external_link : Bool
  media : Bool
  post_day : List Char
deriving DecidableEq

/-- Weekday names by day number since 1970-01-01 (a Thursday); model of
`strftime('%A')` on the publish date. -/
def dayNames : List (List Char) :=
  [("Thursday").toList, ("Friday").toList, ("Saturday").toList, ("Sunday").toList,
   ("Monday").toList, ("Tuesday").toList, ("Wednesday").toList]

/-- `strftime('%A')` for a date given in days since 1970-01-01. -/
def dayName (d : Nat) : List Char := dayNames.getD (d % 7) []

/-- The loop body of `get_posts` for a processed row: fetch the HTML
(the injected fetch collaborator models `_download_post_html`), extract
the raw text, run the detectors, clean the text, count words, and derive
the publish weekday. -/
def processRow (fetch : List Char → List Char) (r : InputRecord) : OutputRecord :=
  let html := fetch r.postUrl
  let raw := extractPostContent html
  let cleaned := cleanTextL raw
  { postUrl := r.postUrl
    publishDate := r.publishDate
    impressions := r.impressions
    post_text := cleaned
    word_count := wordCount cleaned
    n_tags := detectTags raw
    external_link := detectExternalLink raw
    media := detectMedia html
    post_day :=
      match r.publishDate with
      | some d => dayName d
      | none => [] }

/-- A row left with the column defaults `get_posts` initialises before the
loop (`post_text=''`, `word_count=0`, `n_tags=0`, `external_link=False`,
`media=False`, `post_day=''`). -/
def defaultRow (r : InputRecord) : OutputRecord :=
  { postUrl := r.postUrl
    publishDate := r.publishDate
    impressions := r.impressions
    post_text := []
    word_count := 0
    n_tags := 0
    external_link := false
    media := false
    post_day := [] }

/-- The row loop of `get_posts`, carrying the positional index: the body
runs `break` as soon as `index >= 1`, so every row past the first keeps
its initialised defaults. -/
def getPostsAux (fetch : List Char → List Char) : Nat → List InputRecord → List OutputRecord
  | _, [] => []
  | i, r :: rs =>
    (if 1 ≤ i then defaultRow r else processRow fetch r) :: getPostsAux fetch (i + 1) rs

/-- Model of `get_posts` from `src/helper_functions.py`, with the network
download abstracted into the injected `fetch` collaborator. -/
def getPosts (fetch : List Char → List Char) (rows : List InputRecord) : List OutputRecord :=
  getPostsAux fetch 0 rows

/-- A fetched page with a meta-description of two words, used to witness
the row-loop behaviour. -/
def sampleDescHtml : List Char :=
  ("<html><head><meta name=\"description\" content=\"hello world\"></head></html>").toList

/-- A plain input row. -/
def sampleRec : InputRecord := ⟨("https://x.example/post").toList, none, none⟩

/-- The spec's media-detector example document (anonymized domain). -/
def ogExampleComHtml : List Char :=
  ("<meta property=\"og:image\" content=\"https://media.example.com/dms/image/sync/v2/xyz/articleshare\">").toList

/-- The same document with the domain the code actually tests for. -/
def ogLicdnHtml : List Char :=
  ("<meta property=\"og:image\" content=\"https://media.licdn.com/dms/image/sync/v2/xyz/articleshare\">").toList

/-- Marker for lists with no two adjacent plain spaces (the shape
`squeezeSpaces` produces). -/
def noDouble : List Char → Bool
  | [] => true
  | [_] => true
  | c :: d :: cs => !(c = ' ' && d = ' ') && noDouble (d :: cs)

/-! ## Helper lemmas about the record builder -/

theorem getPostsAux_length (f : List Char → List Char) :
    ∀ (rows : List InputRecord) (i : Nat), (getPostsAux f i rows).length = rows.length := by
  intro rows
  induction rows with
  | nil => intro i; rfl
  | cons r rs ih => intro i; simp [getPostsAux, ih]

theorem getPostsAux_getElem? (f : List Char → List Char) :
    ∀ (rows : List InputRecord) (i j : Nat),
      (getPostsAux f i rows)[j]? =
        (rows[j]?).map (fun r => if 1 ≤ i + j then defaultRow r else processRow f r) := by
  intro rows
  induction rows with
  | nil => intro i j; simp [getPostsAux]
  | cons r rs ih =>
    intro i j
    cases j with
    | zero => simp [getPostsAux]
    | succ j =>
      simp only [getPostsAux, List.getElem?_cons_succ]
      rw [ih (i + 1) j]
      have h : i + 1 + j = i + (j + 1) := by omega
      rw [h]

theorem getPostsAux_fetch_irrel (f g : List Char → List Char) :
    ∀ (rows : List InputRecord) (i : Nat), 1 ≤ i →
      getPostsAux f i rows = getPostsAux g i rows := by
  intro rows
  induction rows with
  | nil => intro i _; rfl
  | cons r rs ih =>
    intro i hi
    simp [getPostsAux, hi, ih (i + 1) (by omega)]

theorem processRow_congr (f g : List Char → List Char) (r : InputRecord)
    (h : f r.postUrl = g r.postUrl) : processRow f r = processRow g r := by
  simp [processRow, h]

/-! ## Claims -/

/-- Claim C1 (code bug evidence): the loop of `get_posts` executes `break`
at index 1, contradicting the function's documented per-row processing:
on a two-row batch whose fetch returns a page with a two-word description,
row 1 of the output is the untouched default row (`word_count = 0`,
`post_text = ''`), while actually processing that row would have produced
`word_count = 2`. -/
theorem c1_loop_break_evidence :
    (getPosts (fun _ => sampleDescHtml) [sampleRec, sampleRec])[1]? =
        some (defaultRow sampleRec) ∧
    (processRow (fun _ => sampleDescHtml) sampleRec).word_count = 2 ∧
    (defaultRow sampleRec).word_count = 0 := by
  decide

/-- Claim C2: in `get_posts` the row loop breaks once `index >= 1`, so for
every fetch collaborator every output row past the first is exactly the
initialised default row (empty text, zero counts, false flags, empty day),
and the result depends on the fetch collaborator only through its value at
the first row's URL. -/
theorem c2_rows_after_first_keep_defaults (f g : List Char → List Char)
    (rows : List InputRecord) (i : Nat) (r : InputRecord)
    (hi : 1 ≤ i) (hr : rows[i]? = some r) :
    (getPosts f rows)[i]? = some (defaultRow r) ∧
    ((∀ r0, rows[0]? = some r0 → f r0.postUrl = g r0.postUrl) →
      getPosts f rows = getPosts g rows) := by
  constructor
  · rw [getPosts, getPostsAux_getElem?, hr]
    simp [hi]
  · intro hfg
    cases rows with
    | nil => rfl
    | cons r0 rs =>
      show getPostsAux f 0 (r0 :: rs) = getPostsAux g 0 (r0 :: rs)
      simp only [getPostsAux]
      rw [processRow_congr f g r0 (hfg r0 (by simp)),
        getPostsAux_fetch_irrel f g rs 1 (by omega)]

/-- Witness for C2 on a concrete two-row batch. -/
theorem c2_witness :
    (getPosts (fun _ => []) [sampleRec, sampleRec])[1]? = some (defaultRow sampleRec) ∧
    ((∀ r0, ([sampleRec, sampleRec] : List InputRecord)[0]? = some r0 →
        (fun _ => ([] : List Char)) r0.postUrl = (fun _ => ([] : List Char)) r0.postUrl) →
      getPosts (fun _ => []) [sampleRec, sampleRec] =
        getPosts (fun _ => []) [sampleRec, sampleRec]) :=
  c2_rows_after_first_keep_defaults (fun _ => []) (fun _ => [])
    [sampleRec, sampleRec] 1 sampleRec (by decide) (by decide)

/-- Claim C3: for every fetch collaborator and input batch, `get_posts`
returns exactly one output row per input row, in the same order, and row
`i` of the output carries the input fields (`Post URL`, `Post publish
date`, `Impressions`) of input row `i`. -/
theorem c3_length_and_field_carryover (f : List Char → List Char)
    (rows : List InputRecord) :
    (getPosts f rows).length = rows.length ∧
    ∀ (i : Nat) (r : InputRecord), rows[i]? = some r →
      ∃ o : OutputRecord, (getPosts f rows)[i]? = some o ∧
        o.postUrl = r.postUrl ∧ o.publishDate = r.publishDate ∧
        o.impressions = r.impressions := by
  refine ⟨getPostsAux_length f rows 0, ?_⟩
  intro i r hr
  refine ⟨if 1 ≤ i then defaultRow r else processRow f r, ?_, ?_, ?_, ?_⟩
  · rw [getPosts, getPostsAux_getElem?, hr]
    simp
  · by_cases h : 1 ≤ i <;> simp [h, defaultRow, processRow]
  · by_cases h : 1 ≤ i <;> simp [h, defaultRow, processRow]
  · by_cases h : 1 ≤ i <;> simp [h, defaultRow, processRow]

/-- Witness for C3 on a concrete one-row batch. -/
theorem c3_witness :
    (getPosts (fun _ => []) [sampleRec]).length = [sampleRec].length ∧
    ∃ o : OutputRecord, (getPosts (fun _ => ([] : List Char)) [sampleRec])[0]? = some o ∧
      o.postUrl = sampleRec.postUrl ∧ o.publishDate = sampleRec.publishDate ∧
      o.impressions = sampleRec.impressions :=
  ⟨(c3_length_and_field_carryover (fun _ => []) [sampleRec]).1,
   (c3_length_and_field_carryover (fun _ => []) [sampleRec]).2 0 sampleRec (by decide)⟩

/-- Claim C4: a row whose fetch yields the empty document degrades to the
all-zero feature set (`word_count = 0`, `n_tags = 0`,
`external_link = false`, `media = false`, `post_text = ''`) and is never
dropped: the output still has one row per input row. -/
theorem c4_empty_fetch_degrades (f : List Char → List Char)
    (rows : List InputRecord) :
    (getPosts f rows).length = rows.length ∧
    ∀ (i : Nat) (r : InputRecord), rows[i]? = some r → f r.postUrl = [] →
      ∃ o : OutputRecord, (getPosts f rows)[i]? = some o ∧
        o.word_count = 0 ∧ o.n_tags = 0 ∧ o.external_link = false ∧
        o.media = false ∧ o.post_text = [] := by
  refine ⟨getPostsAux_length f rows 0, ?_⟩
  intro i r hr hfetch
  refine ⟨if 1 ≤ i then defaultRow r else processRow f r, ?_, ?_⟩
  · rw [getPosts, getPostsAux_getElem?, hr]
    simp
  · by_cases h : 1 ≤ i
    · simp [h, defaultRow]
    · simp [h, processRow, hfetch, extractPostContent, cleanTextL, wordCount,
        detectTags, detectExternalLink, detectMedia]

/-- Witness for C4 on a concrete one-row batch with an empty fetch. -/
theorem c4_witness :
    (getPosts (fun _ => []) [sampleRec]).length = [sampleRec].length ∧
    ∃ o : OutputRecord, (getPosts (fun _ => ([] : List Char)) [sampleRec])[0]? = some o ∧
      o.word_count = 0 ∧ o.n_tags = 0 ∧ o.external_link = false ∧
      o.media = false ∧ o.post_text = [] :=
  ⟨(c4_empty_fetch_degrades (fun _ => []) [sampleRec]).1,
   (c4_empty_fetch_degrades (fun _ => []) [sampleRec]).2 0 sampleRec (by decide) (by decide)⟩

/-- Claim C8: every detector and the normalizer map empty input to the
no-signal value of its type: `_detect_tags('') = 0`,
`_detect_external_link('') = False`, `_detect_media('') = False`,
`_extract_post_content('') = ''`, `_clean_text('') = ''`, and the word
count of the empty cleaned text is 0. -/
theorem c8_empty_input_no_signal :
    detectTags [] = 0 ∧ detectExternalLink [] = false ∧ detectMedia [] = false ∧
    extractPostContent [] = [] ∧ cleanTextL [] = [] ∧ wordCount [] = 0 := by
  decide

/-- Claim C9: the tag counter returns 2 on the exact input
`Check out #ai and #ML today` (the two hashtag matches; the mention
patterns, selectors and phrase heuristics contribute nothing here). -/
theorem c9_hashtag_example :
    detectTags (("Check out #ai and #ML today").toList) = 2 := by
  decide

/-- Claim C10: the phrase heuristic of `_detect_tags` fires on its own:
any text whose lowercased content contains `thanks for`, even with no
hashtag matches, no mention-pattern matches and no selector hits, is
counted as containing at least one tag. -/
theorem c10_phrase_false_positive (s : List Char)
    (hphrase : containsSub (("thanks for").toList) ((stripTags s).map Char.toLower) = true)
    (hhash : reCount matchHash (stripTags s) = 0)
    (hat1 : reCount matchAtName (stripTags s) = 0)
    (hat2 : reCount matchAtTwoWords (stripTags s) = 0)
    (hsel : selectorCount (parseElems s) = 0) :
    1 ≤ detectTags s := by
  have hs : s ≠ [] := by
    intro h
    subst h
    exact absurd hphrase (by decide)
  have hm : (("thanks for").toList) ∈ tagPhrases.filter
      (fun p => containsSub p ((stripTags s).map Char.toLower)) := by
    rw [List.mem_filter]
    exact ⟨by decide, hphrase⟩
  have hlen : 0 < (tagPhrases.filter
      (fun p => containsSub p ((stripTags s).map Char.toLower))).length :=
    List.length_pos.mpr (List.ne_nil_of_mem hm)
  simp only [detectTags, if_neg hs]
  omega

/-- Witness for C10 at the spec's own example text. -/
theorem c10_witness : 1 ≤ detectTags (("thanks for reading").toList) :=
  c10_phrase_false_positive (("thanks for reading").toList)
    (by decide) (by decide) (by decide) (by decide) (by decide)

/-- Claim C7 (counterexample): the claim's example document carries an
`og:image` meta tag, yet `_detect_media` returns `False` on it, because
the code tests for the literal prefix `https://media.licdn.com/dms/image`
and the example's URL is under `media.example.com`. -/
theorem c7_counterexample :
    detectMedia ogExampleComHtml = false ∧
    (parseElems ogExampleComHtml).find? isOgImageMeta ≠ none := by
  decide

/-- Claim C7 (amended): `_detect_media` returns `True` on a document whose
`og:image` meta tag's content contains
`https://media.licdn.com/dms/image`, and returns `False` on any document
with no `og:image` meta tag. -/
theorem c7_amended_media_detector :
    detectMedia ogLicdnHtml = true ∧
    (∀ s : List Char, (∀ e ∈ parseElems s, isOgImageMeta e = false) →
      detectMedia s = false) := by
  constructor
  · decide
  · intro s hs
    by_cases h : s = []
    · simp [detectMedia, h]
    · have hn : (parseElems s).find? isOgImageMeta = none :=
        List.find?_eq_none.mpr (fun e he => by simp [hs e he])
      simp [detectMedia, h, hn]

/-- Witness for the amended C7 at a document with no meta tags. -/
theorem c7_witness : detectMedia (("<p>plain</p>").toList) = false :=
  c7_amended_media_detector.2 (("<p>plain</p>").toList) (by decide)

/-! ## Lemmas about the text normalizer (claims C5 and C6) -/

theorem bor_elim {a b : Bool} (h : (a || b) = true) : a = true ∨ b = true := by
  simpa using h

theorem space_not_word {c : Char} (h : isSpaceChar c = true) : isWordChar c = false := by
  simp only [isSpaceChar, Bool.or_eq_true, decide_eq_true_eq] at h
  rcases h with (((((h | h) | h) | h) | h) | h) <;> subst h <;> decide

theorem word_not_space {c : Char} (h : isWordChar c = true) : isSpaceChar c = false := by
  cases hs : isSpaceChar c with
  | false => rfl
  | true => rw [space_not_word hs] at h; exact absurd h (by simp)

theorem punct_not_word {c : Char} (h : isPunct c = true) :
    isWordChar c = false ∧ isSpaceChar c = false := by
  simp only [isPunct, Bool.or_eq_true, decide_eq_true_eq] at h
  rcases h with (((((h | h) | h) | h) | h) | h) <;> subst h <;> exact ⟨by decide, by decide⟩

theorem word1_not_punct {c : Char} (h : (isWordChar c || c = ' ') = true) :
    isPunct c = false := by
  cases hp : isPunct c with
  | false => rfl
  | true =>
    rcases bor_elim h with hw | hsp
    · rw [(punct_not_word hp).1] at hw; exact absurd hw (by simp)
    · have : c = ' ' := by simpa using hsp
      subst this; exact absurd hp (by decide)

theorem word1_kept {c : Char} (h : (isWordChar c || c = ' ') = true) :
    isKeptChar c = true := by
  rcases bor_elim h with hw | hsp
  · simp [isKeptChar, hw]
  · have : c = ' ' := by simpa using hsp
    subst this; decide

theorem wordspace_grab {c : Char} (h : (isWordChar c || c = ' ') = true) :
    (isWordChar c || isSpaceChar c) = true := by
  rcases bor_elim h with hw | hsp
  · simp [hw]
  · have : c = ' ' := by simpa using hsp
    subst this; decide

theorem toSp_class {a : Char} (h : (isWordChar a || isSpaceChar a) = true) :
    (isWordChar (toSp a) || toSp a = ' ') = true := by
  rcases bor_elim h with hw | hs
  · rw [toSp, word_not_space hw]
    simp [hw]
  · rw [toSp, hs]
    simp

theorem toSp_id_of {c : Char} (h : (isWordChar c || c = ' ') = true) : toSp c = c := by
  rcases bor_elim h with hw | hsp
  · rw [toSp, word_not_space hw]
    rfl
  · have : c = ' ' := by simpa using hsp
    subst this; rfl

theorem wordspace_not_mem {s : List Char}
    (h : ∀ c ∈ s, (isWordChar c || isSpaceChar c) = true) {d : Char}
    (hd : (isWordChar d || isSpaceChar d) = false) : d ∉ s := by
  intro hm
  rw [h d hm] at hd
  exact absurd hd (by simp)

theorem stripPre_mem : ∀ (p s t : List Char), stripPre p s = some t → ∀ c ∈ p, c ∈ s := by
  intro p
  induction p with
  | nil => intro s t _ c hc; exact absurd hc (List.not_mem_nil c)
  | cons a ps ih =>
    intro s t h c hc
    cases s with
    | nil => exact absurd h (by simp [stripPre])
    | cons b bs =>
      simp only [stripPre] at h
      by_cases hab : b = a
      · rw [if_pos hab] at h
        rcases List.mem_cons.mp hc with h1 | h1
        · subst h1; rw [← hab]; exact List.mem_cons_self b bs
        · exact List.mem_cons_of_mem b (ih bs t h c h1)
      · rw [if_neg hab] at h
        exact absurd h (by simp)

theorem matchHttpLnkd_colon {s t : List Char} (h : matchHttpLnkd s = some t) : ':' ∈ s := by
  unfold matchHttpLnkd at h
  cases h1 : stripPre (("https://lnkd.in/").toList) s with
  | some r => exact stripPre_mem _ _ _ h1 ':' (by decide)
  | none =>
    rw [h1] at h
    cases h2 : stripPre (("http://lnkd.in/").toList) s with
    | some r => exact stripPre_mem _ _ _ h2 ':' (by decide)
    | none => rw [h2] at h; exact absurd h (by simp)

theorem matchUrl_colon {s t : List Char} (h : matchUrl s = some t) : ':' ∈ s := by
  unfold matchUrl at h
  cases h1 : stripPre (("https://").toList) s with
  | some r => exact stripPre_mem _ _ _ h1 ':' (by decide)
  | none =>
    rw [h1] at h
    cases h2 : stripPre (("http://").toList) s with
    | some r => exact stripPre_mem _ _ _ h2 ':' (by decide)
    | none => rw [h2] at h; exact absurd h (by simp)

theorem matchMangled_dot {s t : List Char} (h : matchMangled s = some t) : '.' ∈ s := by
  unfold matchMangled at h
  cases h1 : stripPre (("httpslnkd.in").toList) s with
  | some r => exact stripPre_mem _ _ _ h1 '.' (by decide)
  | none => rw [h1] at h; exact absurd h (by simp)

theorem matchLnkdShort_dot {s t : List Char} (h : matchLnkdShort s = some t) : '.' ∈ s := by
  unfold matchLnkdShort at h
  cases h1 : stripPre (("lnkd.in/").toList) s with
  | some r => exact stripPre_mem _ _ _ h1 '.' (by decide)
  | none => rw [h1] at h; exact absurd h (by simp)

theorem reDelFuel_eq_self (m : List Char → Option (List Char)) :
    ∀ (fuel : Nat) (s : List Char),
      (∀ t : List Char, (∀ c, c ∈ t → c ∈ s) → m t = none) →
      reDelFuel m fuel s = s := by
  intro fuel
  induction fuel with
  | zero => intro s _; cases s <;> rfl
  | succ f ih =>
    intro s h
    cases s with
    | nil => rfl
    | cons c cs =>
      simp only [reDelFuel, h (c :: cs) (fun d hd => hd)]
      rw [ih cs (fun t ht => h t (fun d hd => List.mem_cons_of_mem c (ht d hd)))]

theorem reDel_matchHttpLnkd_id {s : List Char} (h : ':' ∉ s) : reDel matchHttpLnkd s = s :=
  reDelFuel_eq_self _ _ _ (fun t ht => by
    cases heq : matchHttpLnkd t with
    | none => rfl
    | some r => exact absurd (ht ':' (matchHttpLnkd_colon heq)) h)

theorem reDel_matchUrl_id {s : List Char} (h : ':' ∉ s) : reDel matchUrl s = s :=
  reDelFuel_eq_self _ _ _ (fun t ht => by
    cases heq : matchUrl t with
    | none => rfl
    | some r => exact absurd (ht ':' (matchUrl_colon heq)) h)

theorem reDel_matchMangled_id {s : List Char} (h : '.' ∉ s) : reDel matchMangled s = s :=
  reDelFuel_eq_self _ _ _ (fun t ht => by
    cases heq : matchMangled t with
    | none => rfl
    | some r => exact absurd (ht '.' (matchMangled_dot heq)) h)

theorem reDel_matchLnkdShort_id {s : List Char} (h : '.' ∉ s) : reDel matchLnkdShort s = s :=
  reDelFuel_eq_self _ _ _ (fun t ht => by
    cases heq : matchLnkdShort t with
    | none => rfl
    | some r => exact absurd (ht '.' (matchLnkdShort_dot heq)) h)

theorem stripTagsAux_id : ∀ s : List Char, '<' ∉ s → stripTagsAux false s = s := by
  intro s
  induction s with
  | nil => intro _; rfl
  | cons c cs ih =>
    intro h
    have hc : ¬ c = '<' := fun heq => h (heq ▸ List.mem_cons_self c cs)
    simp only [stripTagsAux, if_neg hc]
    exact congrArg (List.cons c) (ih (fun hm => h (List.mem_cons_of_mem c hm)))

theorem stripTags_id {s : List Char} (h : '<' ∉ s) : stripTags s = s :=
  stripTagsAux_id s h

theorem mem_stripEnds {s : List Char} {c : Char} (h : c ∈ stripEnds s) : c ∈ s := by
  rw [stripEnds] at h
  have h1 := List.mem_reverse.mp h
  have h2 := (List.dropWhile_sublist isSpaceChar).mem h1
  have h3 := List.mem_reverse.mp h2
  exact (List.dropWhile_sublist isSpaceChar).mem h3

theorem mem_squeezeSpaces : ∀ l : List Char, ∀ c ∈ squeezeSpaces l, c ∈ l := by
  intro l
  induction l using squeezeSpaces.induct with
  | case1 => intro c hc; exact absurd hc (List.not_mem_nil c)
  | case2 a => intro c hc; exact hc
  | case3 c d cs hcd ih =>
    intro x hx
    simp only [squeezeSpaces, if_pos hcd] at hx
    exact List.mem_cons_of_mem c (ih x hx)
  | case4 c d cs hcd ih =>
    intro x hx
    simp only [squeezeSpaces, if_neg hcd] at hx
    rcases List.mem_cons.mp hx with h1 | h1
    · subst h1; exact List.mem_cons_self x _
    · exact List.mem_cons_of_mem c (ih x h1)

theorem squeezeSpaces_head? : ∀ l : List Char, (squeezeSpaces l).head? = l.head? := by
  intro l
  induction l using squeezeSpaces.induct with
  | case1 => rfl
  | case2 c => rfl
  | case3 c d cs hcd ih =>
    have hc : c = ' ' ∧ d = ' ' := by
      simpa [Bool.and_eq_true, decide_eq_true_eq] using hcd
    simp only [squeezeSpaces, if_pos hcd]
    rw [ih]
    simp [hc.1, hc.2]
  | case4 c d cs hcd ih =>
    simp only [squeezeSpaces, if_neg hcd]
    rfl

theorem squeezeSpaces_ne_nil (c : Char) (cs : List Char) : squeezeSpaces (c :: cs) ≠ [] := by
  intro h
  have h1 := squeezeSpaces_head? (c :: cs)
  rw [h] at h1
  exact absurd h1 (by simp)

theorem squeezeSpaces_getLast? : ∀ l : List Char, (squeezeSpaces l).getLast? = l.getLast? := by
  intro l
  induction l using squeezeSpaces.induct with
  | case1 => rfl
  | case2 c => rfl
  | case3 c d cs hcd ih =>
    simp only [squeezeSpaces, if_pos hcd]
    rw [ih, List.getLast?_cons_cons]
  | case4 c d cs hcd ih =>
    simp only [squeezeSpaces, if_neg hcd]
    cases hx : squeezeSpaces (d :: cs) with
    | nil => exact absurd hx (squeezeSpaces_ne_nil d cs)
    | cons e es =>
      rw [List.getLast?_cons_cons, ← hx, ih, List.getLast?_cons_cons]

theorem noDouble_squeezeSpaces : ∀ l : List Char, noDouble (squeezeSpaces l) = true := by
  intro l
  induction l using squeezeSpaces.induct with
  | case1 => rfl
  | case2 c => rfl
  | case3 c d cs hcd ih =>
    simp only [squeezeSpaces, if_pos hcd]
    exact ih
  | case4 c d cs hcd ih =>
    simp only [squeezeSpaces, if_neg hcd]
    cases hx : squeezeSpaces (d :: cs) with
    | nil => exact absurd hx (squeezeSpaces_ne_nil d cs)
    | cons e es =>
      have hde : e = d := by
        have h1 := squeezeSpaces_head? (d :: cs)
        rw [hx] at h1
        simpa using h1
      have hfalse : (decide (c = ' ') && decide (d = ' ')) = false := Bool.eq_false_iff.mpr hcd
      have h2 : noDouble (e :: es) = true := hx ▸ ih
      rw [hde] at h2
      simp [noDouble, hde, hfalse, h2]

theorem noDouble_id : ∀ l : List Char, noDouble l = true → squeezeSpaces l = l := by
  intro l
  induction l using squeezeSpaces.induct with
  | case1 => intro _; rfl
  | case2 c => intro _; rfl
  | case3 c d cs hcd ih =>
    intro h
    simp only [noDouble, Bool.and_eq_true] at h
    rw [hcd] at h
    simp at h
  | case4 c d cs hcd ih =>
    intro h
    simp only [noDouble, Bool.and_eq_true] at h
    simp only [squeezeSpaces, if_neg hcd]
    rw [ih h.2]

theorem head?_dropWhile_false {p : Char → Bool} {l : List Char} {c : Char}
    (h : (l.dropWhile p).head? = some c) : p c = false := by
  have hgen := List.head?_dropWhile_not p l
  rw [h] at hgen
  exact hgen

theorem getLast?_dropWhile {p : Char → Bool} : ∀ l : List Char,
    l.dropWhile p ≠ [] → (l.dropWhile p).getLast? = l.getLast? := by
  intro l
  induction l with
  | nil => intro h; exact absurd rfl h
  | cons c cs ih =>
    intro h
    rw [List.dropWhile_cons] at h ⊢
    by_cases hp : p c = true
    · rw [if_pos hp] at h ⊢
      rw [ih h]
      cases cs with
      | nil => exact absurd rfl h
      | cons d ds => rw [List.getLast?_cons_cons]
    · rw [if_neg hp]

theorem head_stripEnds_not_space {s : List Char} {a : Char}
    (h : (stripEnds s).head? = some a) : isSpaceChar a = false := by
  rw [stripEnds, List.head?_reverse] at h
  have hne : List.dropWhile isSpaceChar ((s.dropWhile isSpaceChar).reverse) ≠ [] := by
    intro hnil
    rw [hnil] at h
    exact absurd h (by simp)
  rw [getLast?_dropWhile _ hne, List.getLast?_reverse] at h
  exact head?_dropWhile_false h

theorem getLast_stripEnds_not_space {s : List Char} {a : Char}
    (h : (stripEnds s).getLast? = some a) : isSpaceChar a = false := by
  rw [stripEnds, List.getLast?_reverse] at h
  exact head?_dropWhile_false h

theorem getLast?_map (f : Char → Char) (l : List Char) :
    (l.map f).getLast? = l.getLast?.map f := by
  rw [← List.head?_reverse, ← List.map_reverse, List.head?_map, List.head?_reverse]

theorem stripEnds_eq_self {u : List Char}
    (h1 : ∀ c, u.head? = some c → isSpaceChar c = false)
    (h2 : ∀ c, u.getLast? = some c → isSpaceChar c = false) :
    stripEnds u = u := by
  have hd : u.dropWhile isSpaceChar = u := by
    cases u with
    | nil => rfl
    | cons c cs =>
      rw [List.dropWhile_cons, h1 c rfl]
      simp
  have hrev : u.reverse.dropWhile isSpaceChar = u.reverse := by
    cases hr : u.reverse with
    | nil => rfl
    | cons c cs =>
      have hc : u.getLast? = some c := by
        rw [← List.head?_reverse, hr]
        rfl
      rw [List.dropWhile_cons, h2 c hc]
      simp
  rw [stripEnds, hd, hrev, List.reverse_reverse]

theorem headIsPunct_eq_false {s : List Char} (h : ∀ c ∈ s, isPunct c = false) :
    headIsPunct s = false := by
  unfold headIsPunct
  cases heq : s.dropWhile isSpaceChar with
  | nil => rfl
  | cons c cs =>
    have hc : c ∈ s := (List.dropWhile_sublist isSpaceChar).mem
      (by rw [heq]; exact List.mem_cons_self c cs)
    exact h c hc

theorem fixPunct_eq_self : ∀ s : List Char, (∀ c ∈ s, isPunct c = false) → fixPunct s = s := by
  intro s
  induction s with
  | nil => intro _; rfl
  | cons c cs ih =>
    intro h
    have h2 : headIsPunct cs = false :=
      headIsPunct_eq_false (fun d hd => h d (List.mem_cons_of_mem c hd))
    simp only [fixPunct, h2, Bool.and_false, Bool.false_eq_true, if_false]
    exact congrArg (List.cons c) (ih (fun d hd => h d (List.mem_cons_of_mem c hd)))

theorem map_toSp_id : ∀ u : List Char,
    (∀ c ∈ u, (isWordChar c || c = ' ') = true) → u.map toSp = u := by
  intro u
  induction u with
  | nil => intro _; rfl
  | cons c cs ih =>
    intro h
    rw [List.map_cons, toSp_id_of (h c (List.mem_cons_self c cs)),
      ih (fun d hd => h d (List.mem_cons_of_mem c hd))]

theorem cleanTextL_wordspace {s : List Char}
    (h : ∀ c ∈ s, (isWordChar c || isSpaceChar c) = true) :
    cleanTextL s = squeezeSpaces ((stripEnds s).map toSp) := by
  by_cases hnil : s = []
  · subst hnil; rfl
  · have hmem : ∀ c ∈ squeezeSpaces ((stripEnds s).map toSp),
        (isWordChar c || c = ' ') = true := by
      intro c hc
      rcases List.mem_map.mp (mem_squeezeSpaces _ c hc) with ⟨a, ha, rfl⟩
      exact toSp_class (h a (mem_stripEnds ha))
    rw [cleanTextL, if_neg hnil,
      stripTags_id (wordspace_not_mem h (by decide)),
      reDel_matchHttpLnkd_id (wordspace_not_mem h (by decide)),
      reDel_matchMangled_id (wordspace_not_mem h (by decide)),
      reDel_matchLnkdShort_id (wordspace_not_mem h (by decide)),
      reDel_matchUrl_id (wordspace_not_mem h (by decide)),
      collapseWs,
      fixPunct_eq_self _ (fun c hc => word1_not_punct (hmem c hc)),
      List.filter_eq_self.mpr (fun c hc => word1_kept (hmem c hc))]

/-- Claim C5 (counterexample): the normalizer is not idempotent: on
`a @ b` one pass removes the `@` after whitespace collapsing, leaving two
adjacent spaces, which a second pass collapses. -/
theorem c5_counterexample :
    cleanTextL (cleanTextL (("a @ b").toList)) ≠ cleanTextL (("a @ b").toList) := by
  decide

/-- Claim C5 (amended): the normalizer is idempotent on inputs made only of
word characters and whitespace (the counterexample shows that inputs with
filtered special characters break idempotence, because the
special-character filter runs after whitespace collapsing). -/
theorem c5_amended_idempotent_on_plain (s : List Char)
    (h : ∀ c ∈ s, (isWordChar c || isSpaceChar c) = true) :
    cleanTextL (cleanTextL s) = cleanTextL s := by
  rw [cleanTextL_wordspace h]
  set u := squeezeSpaces ((stripEnds s).map toSp) with hu
  have humem : ∀ c ∈ u, (isWordChar c || c = ' ') = true := by
    intro c hc
    rcases List.mem_map.mp (mem_squeezeSpaces _ c (hu ▸ hc)) with ⟨a, ha, rfl⟩
    exact toSp_class (h a (mem_stripEnds ha))
  have humem2 : ∀ c ∈ u, (isWordChar c || isSpaceChar c) = true :=
    fun c hc => wordspace_grab (humem c hc)
  have hh : ∀ c, u.head? = some c → isSpaceChar c = false := by
    intro c hc
    rw [hu, squeezeSpaces_head?, List.head?_map] at hc
    cases hse : (stripEnds s).head? with
    | none => rw [hse] at hc; exact absurd hc (by simp)
    | some a =>
      rw [hse] at hc
      have ha : isSpaceChar a = false := head_stripEnds_not_space hse
      have hta : toSp a = a := by rw [toSp, ha]; rfl
      have : c = a := by
        have := hc
        simp only [Option.map_some'] at this
        rw [hta] at this
        exact (Option.some.inj this).symm
      rw [this]
      exact ha
  have hl : ∀ c, u.getLast? = some c → isSpaceChar c = false := by
    intro c hc
    rw [hu, squeezeSpaces_getLast?, getLast?_map] at hc
    cases hse : (stripEnds s).getLast? with
    | none => rw [hse] at hc; exact absurd hc (by simp)
    | some a =>
      rw [hse] at hc
      have ha : isSpaceChar a = false := getLast_stripEnds_not_space hse
      have hta : toSp a = a := by rw [toSp, ha]; rfl
      have : c = a := by
        have := hc
        simp only [Option.map_some'] at this
        rw [hta] at this
        exact (Option.some.inj this).symm
      rw [this]
      exact ha
  rw [cleanTextL_wordspace humem2, stripEnds_eq_self hh hl, map_toSp_id u humem,
    noDouble_id u (hu ▸ noDouble_squeezeSpaces ((stripEnds s).map toSp))]

/-- Witness for the amended C5 on a concrete word-and-space string. -/
theorem c5_witness :
    cleanTextL (cleanTextL (("hello   world").toList)) =
      cleanTextL (("hello   world").toList) :=
  c5_amended_idempotent_on_plain (("hello   world").toList) (by decide)

theorem startsWith_mem : ∀ (p t : List Char), startsWith p t = true → ∀ c ∈ p, c ∈ t := by
  intro p
  induction p with
  | nil => intro t _ c hc; exact absurd hc (List.not_mem_nil c)
  | cons a ps ih =>
    intro t h c hc
    cases t with
    | nil => exact absurd h (by simp [startsWith])
    | cons b bs =>
      simp only [startsWith, Bool.and_eq_true, decide_eq_true_eq] at h
      rcases List.mem_cons.mp hc with h1 | h1
      · subst h1; rw [h.1]; exact List.mem_cons_self b bs
      · exact List.mem_cons_of_mem b (ih bs h.2 c h1)

theorem containsSub_mem : ∀ (t p : List Char), containsSub p t = true → ∀ c ∈ p, c ∈ t := by
  intro t
  induction t with
  | nil =>
    intro p h c hc
    cases p with
    | nil => exact absurd hc (List.not_mem_nil c)
    | cons a ps => exact absurd h (by simp [containsSub, startsWith])
  | cons b bs ih =>
    intro p h c hc
    simp only [containsSub, Bool.or_eq_true] at h
    rcases h with h | h
    · exact startsWith_mem p (b :: bs) h c hc
    · exact List.mem_cons_of_mem b (ih p h c hc)

/-- Claim C6 (counterexample): the normalizer's output can contain leftover
text matching the bare domain/token short-link pattern: on `lnkd@.in/abc`
the special-character filter removes the `@` after the short-link passes
already ran, leaving `lnkd.in/abc`, a bare-form short-link match, in the
output. -/
theorem c6_counterexample :
    cleanText ("lnkd@.in/abc") = "lnkd.in/abc" ∧
    matchLnkdShort (("lnkd.in/abc").toList) = some [] ∧
    reCount matchLnkdShort (cleanTextL (("lnkd@.in/abc").toList)) = 1 := by
  decide

/-- Claim C6 (amended): for every input, the normalizer's output contains
no markup (no `<` survives the final filter) and no scheme-qualified URL
text (no `:` survives, so neither `http://` nor `https://` nor the
scheme-qualified short-link form can occur in the output); the
scheme-mangled and bare domain/token short-link forms, however, can
survive, as the counterexample shows. -/
theorem c6_amended_no_markup_no_scheme (s : List Char) :
    '<' ∉ cleanTextL s ∧ ':' ∉ cleanTextL s ∧
    containsSub (("http://").toList) (cleanTextL s) = false ∧
    containsSub (("https://").toList) (cleanTextL s) = false := by
  have hgen : ∀ d : Char, isKeptChar d = false → d ∉ cleanTextL s := by
    intro d hd hmem
    by_cases hnil : s = []
    · subst hnil
      exact absurd hmem (by simp [cleanTextL])
    · rw [cleanTextL, if_neg hnil] at hmem
      have hk := (List.mem_filter.mp hmem).2
      rw [hd] at hk
      exact absurd hk (by simp)
  refine ⟨hgen '<' (by decide), hgen ':' (by decide), ?_, ?_⟩
  · cases hcs : containsSub (("http://").toList) (cleanTextL s) with
    | false => rfl
    | true =>
      exact absurd (containsSub_mem _ _ hcs ':' (by decide)) (hgen ':' (by decide))
  · cases hcs : containsSub (("https://").toList) (cleanTextL s) with
    | false => rfl
    | true =>
      exact absurd (containsSub_mem _ _ hcs ':' (by decide)) (hgen ':' (by decide))

/-- Witness for the amended C6 at a concrete input. -/
theorem c6_witness :
    '<' ∉ cleanTextL (("<b>see https://a.example/x</b>").toList) ∧
    ':' ∉ cleanTextL (("<b>see https://a.example/x</b>").toList) ∧
    containsSub (("http://").toList)
      (cleanTextL (("<b>see https://a.example/x</b>").toList)) = false ∧
    containsSub (("https://").toList)
      (cleanTextL (("<b>see https://a.example/x</b>").toList)) = false :=
  c6_amended_no_markup_no_scheme (("<b>see https://a.example/x</b>").toList)
